import Mathlib

/-!
Verification of the tetron layered virtual file system (`src/fs/`).

The Rust sources are shallowly embedded as executable Lean definitions:

* `normalize_path` and `join_path` embed the path normalizer of `src/fs/mod.rs`.
  Rust's `str::split('/')` and `Vec::join("/")` are modelled by `splitSlash` and
  `joinSlash` on `List Char` (a Rust `char` iterator and a Lean `Char` list agree:
  both walk Unicode scalar values).  The accumulator `Vec` with `push`/`pop` is
  modelled by a reversed list with `cons`/`tail`.
* `ZipFs` embeds `src/fs/zip_fs.rs`.  The zip crate's parsing is outside the
  repository; a parsed archive is taken as input: a list of `RawEntry` values
  carrying the raw entry name and file bytes, in archive index order, exactly the
  data `ZipFs::new` reads off `ZipArchive` (`file.name()`, `file.size()`,
  aided by `by_index` for contents).  `HashMap` is modelled as an association
  list with replace-on-insert (`insertReplace`), `BTreeSet<String>` as a sorted
  duplicate-free list (`insertSorted`, ordered by `strLt`, the codepoint order,
  which coincides with Rust's byte-wise `String` order since UTF-8 preserves
  codepoint order).  The indexed `for` loops become structural recursions
  (`buildMaps`, `synthDirs`).  Byte indices used by `rfind('/')` and prefix
  slicing fall on character boundaries for the strings involved, so character
  positions model them faithfully.
* `OverlayFs` embeds `src/fs/overlay_fs.rs`; a boxed `dyn SimpleFs` layer is a
  `SimpleFs` record of the four contract operations.  The `HashSet` that merges
  listings followed by `Vec::sort` is modelled by `sortDedup`, which produces
  the same observable result: the ascending list of the distinct entries.
* `NoOpFs` embeds `src/fs/noop_fs.rs`.  Its operations panic via
  `unimplemented!`, so their results live in `PanicOr`, which distinguishes a
  panic from a value returned through the `Result`/`bool` contract.
-/

deriving instance DecidableEq for Except

/-- Codepoint-lexicographic order on character lists: the order Rust uses to
sort `Vec<String>` and to organize `BTreeSet<String>` (byte-wise comparison of
UTF-8 data, which coincides with codepoint order). -/
def ltChars : List Char → List Char → Bool
  | [], [] => false
  | [], _ :: _ => true
  | _ :: _, [] => false
  | a :: as, b :: bs =>
    if a.toNat < b.toNat then true
    else if b.toNat < a.toNat then false
    else ltChars as bs

/-- Rust `String` comparison (`Ord`), as used by `out.sort()` and `BTreeSet`. -/
def strLt (a b : String) : Bool := ltChars a.toList b.toList

/-- Rust `str::split('/')`: splits into (possibly empty) chunks between `/`
characters; the empty input yields one empty chunk, like Rust's iterator. -/
def splitSlash : List Char → List (List Char)
  | [] => [[]]
  | c :: rest =>
    if c = '/' then [] :: splitSlash rest
    else
      match splitSlash rest with
      | [] => [[c]]
      | s :: ss => (c :: s) :: ss

/-- Rust `Vec::join("/")` on the segment list. -/
def joinSlash : List (List Char) → List Char
  | [] => []
  | [s] => s
  | s :: rest => s ++ '/' :: joinSlash rest

/-- The segment loop of `normalize_path` (src/fs/mod.rs lines 57-65).  The Rust
`Vec` accumulator is kept reversed: `push` is `cons` and `pop` is `tail`
(`tail [] = []` matches `pop` on an empty `Vec` being a no-op). -/
def normSegs (acc : List (List Char)) : List (List Char) → List (List Char)
  | [] => acc
  | part :: rest =>
    if part = [] ∨ part = ['.'] then normSegs acc rest
    else if part = ['.', '.'] then normSegs acc.tail rest
    else normSegs (part :: acc) rest

/-- Rust `normalize_path` (src/fs/mod.rs): split on `/`, drop empty and `.` segments,
pop on `..`, re-join with single slashes; root is the empty string. -/
def normalize_path (path : String) : String :=
  String.mk (joinSlash (normSegs [] (splitSlash path.toList)).reverse)

/-- Rust `join_path` (src/fs/mod.rs): joins two forward-slash paths where lhs may be
empty (root), ensuring a single slash between. -/
def join_path (lhs rhs : String) : String :=
  if lhs = "" then rhs
  else if rhs = "" then lhs
  else String.mk (lhs.toList ++ '/' :: rhs.toList)

/-- Rust `FsError` (src/fs/mod.rs).  `Io` wraps the lower-level error's message. -/
inductive FsError where
  | NotFound
  | ReadError (msg : String)
  | Io (msg : String)
deriving DecidableEq, Repr

/-- Rust `FileMetadata` (src/fs/mod.rs). -/
structure FileMetadata where
  len : Nat
  is_dir : Bool
deriving DecidableEq, Repr

/-- A boxed `dyn SimpleFs` trait object: the four primitive contract operations
(src/fs/mod.rs trait `SimpleFs`).  File bytes are `List Nat`.  The Rust method
`exists` is rendered `existsb` (`exists` is reserved in Lean). -/
structure SimpleFs where
  read_dir : String → Except FsError (List String)
  open_file : String → Except FsError (List Nat)
  metadata : String → Except FsError FileMetadata
  existsb : String → Bool

/-- One parsed archive record, in archive order: the raw entry name as stored in
the zip central directory and the entry's (uncompressed) bytes. -/
structure RawEntry where
  name : String
  data : List Nat
deriving DecidableEq, Repr

/-- Rust `ZipEntry` (src/fs/zip_fs.rs lines 10-15). -/
structure ZipEntry where
  index : Nat
  is_dir : Bool
  len : Nat
deriving DecidableEq, Repr

/-- Rust `HashMap` lookup on the association-list model. -/
def alookup {α : Type} : List (String × α) → String → Option α
  | [], _ => none
  | (k, v) :: rest, key => if k = key then some v else alookup rest key

/-- Rust `HashMap::insert`: replaces the binding if the key is present, otherwise
adds it. -/
def insertReplace {α : Type} : List (String × α) → String → α → List (String × α)
  | [], key, v => [(key, v)]
  | (k, w) :: rest, key, v =>
    if k = key then (key, v) :: rest else (k, w) :: insertReplace rest key v

/-- Rust `BTreeSet<String>::insert`: keeps the set sorted (by `strLt`) and free of
duplicates. -/
def insertSorted (x : String) : List String → List String
  | [] => [x]
  | y :: rest =>
    if x = y then y :: rest
    else if strLt x y then x :: y :: rest
    else y :: insertSorted x rest

/-- Rust `dir_map.entry(parent).or_default().insert(entry_name)` (src/fs/zip_fs.rs
line 70): find the parent's set, inserting an empty set first if absent. -/
def insertDirMap : List (String × List String) → String → String → List (String × List String)
  | [], parent, n => [(parent, [n])]
  | (k, s) :: rest, parent, n =>
    if k = parent then (k, insertSorted n s) :: rest
    else (k, s) :: insertDirMap rest parent n

/-- Rust `norm.rfind('/')` splitting (src/fs/zip_fs.rs lines 63-69): when the list
contains a `/`, returns the parts before and after the last one. -/
def splitLastSlash : List Char → Option (List Char × List Char)
  | [] => none
  | c :: rest =>
    match splitLastSlash rest with
    | some (p, n) => some (c :: p, n)
    | none => if c = '/' then some ([], rest) else none

/-- Parent directory and final segment of a normalized path: everything before
the last `/` (or root if none) and everything after it. -/
def splitParent (s : String) : String × String :=
  match splitLastSlash s.toList with
  | some (p, n) => (String.mk p, String.mk n)
  | none => ("", s)

/-- Rust `name.ends_with('/')`: the zip convention marking directory records. -/
def endsWithSlash (s : String) : Bool := s.toList.getLast? = some '/'

/-- Rust `ZipFs::detect_and_strip_root_prefix` (src/fs/zip_fs.rs lines 95-108): the
first `/`-delimited segment of the first entry name, provided every entry name
starts with that segment followed by `/`. -/
def detectCommonRoot (names : List String) : Option String :=
  match names with
  | [] => none
  | first :: _ =>
    if '/' ∈ first.toList then
      if names.all (fun n =>
          (first.toList.takeWhile (fun c => c ≠ '/') ++ ['/']).isPrefixOf n.toList) then
        some (String.mk (first.toList.takeWhile (fun c => c ≠ '/')))
      else none
    else none

/-- The normalized entry key: raw name with `plen` leading characters (the root
prefix, when detected) stripped, then normalized (src/fs/zip_fs.rs lines 46-47). -/
def normKey (plen : Nat) (name : String) : String :=
  normalize_path (String.mk (name.toList.drop plen))

/-- The per-entry loop of `ZipFs::new` (src/fs/zip_fs.rs lines 44-71), carrying
the archive index `i` and the pair of accumulating maps. -/
def buildMaps (plen : Nat) :
    Nat → List RawEntry →
    List (String × ZipEntry) × List (String × List String) →
    List (String × ZipEntry) × List (String × List String)
  | _, [], maps => maps
  | i, e :: rest, (es, dm) =>
    buildMaps plen (i + 1) rest
      (if normKey plen e.name = "" then es
       else insertReplace es (normKey plen e.name) ⟨i, endsWithSlash e.name, e.data.length⟩,
       insertDirMap dm (splitParent (normKey plen e.name)).1 (splitParent (normKey plen e.name)).2)

/-- The ancestor-synthesis loop of `ZipFs::new` (src/fs/zip_fs.rs lines 73-85):
each directory-map key that is not already an entry and is not the empty root
key receives a synthetic directory entry (index 0, directory flag, length 0). -/
def synthDirs : List (String × List String) → List (String × ZipEntry) → List (String × ZipEntry)
  | [], es => es
  | (k, _) :: rest, es =>
    synthDirs rest (if alookup es k = none ∧ k ≠ "" then insertReplace es k ⟨0, true, 0⟩ else es)

/-- Rust `ZipFs` (src/fs/zip_fs.rs lines 17-23): the retained archive (modelling
`buf`, re-opened per read), the entry index and the directory map. -/
structure ZipFs where
  archive : List RawEntry
  entries : List (String × ZipEntry)
  dir_map : List (String × List String)

/-- Rust `prefix_len` (src/fs/zip_fs.rs line 42): length of the detected root
prefix, or 0 when there is none. -/
def zipPlen (archive : List RawEntry) : Nat :=
  match detectCommonRoot (archive.map (fun e => e.name)) with
  | some s => s.toList.length
  | none => 0

/-- Rust `ZipFs::new` (src/fs/zip_fs.rs lines 26-92) on an already-parsed archive. -/
def ZipFs.new (archive : List RawEntry) : ZipFs :=
  ⟨archive,
   synthDirs (buildMaps (zipPlen archive) 0 archive ([], [])).2
     (buildMaps (zipPlen archive) 0 archive ([], [])).1,
   (buildMaps (zipPlen archive) 0 archive ([], [])).2⟩

/-- Rust `ZipFs::read_dir` (src/fs/zip_fs.rs lines 117-131): the directory map's
child set for the normalized path, each name re-joined onto the parent. -/
def ZipFs.read_dir (z : ZipFs) (path : String) : Except FsError (List String) :=
  match alookup z.dir_map (normalize_path path) with
  | some set => .ok (set.map (fun name => join_path (normalize_path path) name))
  | none => .error .NotFound

/-- Rust `ZipFs::open_file` (src/fs/zip_fs.rs lines 133-145): a non-directory entry
is read in full from a fresh reader over the retained archive; a directory or a
missing entry is `NotFound`. -/
def ZipFs.open_file (z : ZipFs) (path : String) : Except FsError (List Nat) :=
  match alookup z.entries (normalize_path path) with
  | some e =>
    if e.is_dir then .error .NotFound
    else
      match z.archive.get? e.index with
      | some re => .ok re.data
      | none => .error (.Io "invalid zip entry index")
  | none => .error .NotFound

/-- Rust `ZipFs::metadata` (src/fs/zip_fs.rs lines 147-156). -/
def ZipFs.metadata (z : ZipFs) (path : String) : Except FsError FileMetadata :=
  match alookup z.entries (normalize_path path) with
  | some e => .ok ⟨e.len, e.is_dir⟩
  | none => .error .NotFound

/-- Rust `ZipFs::exists` (src/fs/zip_fs.rs lines 158-161). -/
def ZipFs.existsb (z : ZipFs) (path : String) : Bool :=
  (alookup z.entries (normalize_path path)).isSome

/-- Rust `Box::new(ZipFs...)` as a `dyn SimpleFs` trait object. -/
def ZipFs.toSimpleFs (z : ZipFs) : SimpleFs :=
  ⟨z.read_dir, z.open_file, z.metadata, z.existsb⟩

/-- Rust `OverlayFs` (src/fs/overlay_fs.rs lines 5-7). -/
structure OverlayFs where
  layers : List SimpleFs

/-- Rust `OverlayFs::from_layers` (src/fs/overlay_fs.rs lines 10-14): reverses the
caller-supplied order, so the last layer is topmost. -/
def OverlayFs.from_layers (layers : List SimpleFs) : OverlayFs :=
  ⟨layers.reverse⟩

/-- The collection loop of `OverlayFs::read_dir` (src/fs/overlay_fs.rs lines
23-30): every entry of every successful layer listing, in traversal order.
`entries_found` is true exactly when this list is nonempty (the flag is set
once per iterated entry). -/
def collectDirEntries (layers : List SimpleFs) (path : String) : List String :=
  layers.foldl
    (fun acc fs =>
      match fs.read_dir path with
      | .ok entries => acc ++ entries
      | .error _ => acc)
    []

/-- Rust `HashSet` accumulation followed by `Vec::sort`: the ascending (by `strLt`)
list of the distinct collected entries. -/
def sortDedup (l : List String) : List String :=
  l.foldl (fun acc s => insertSorted s acc) []

/-- Rust `OverlayFs::read_dir` (src/fs/overlay_fs.rs lines 18-39). -/
def OverlayFs.read_dir (o : OverlayFs) (path : String) : Except FsError (List String) :=
  if collectDirEntries o.layers (normalize_path path) = [] then .error .NotFound
  else .ok (sortDedup (collectDirEntries o.layers (normalize_path path)))

/-- The fall-through loop shared by `OverlayFs::open_file` and
`OverlayFs::metadata`: first successful layer result, else `NotFound`. -/
def firstOk {α : Type} (layers : List SimpleFs) (f : SimpleFs → Except FsError α) :
    Except FsError α :=
  match layers with
  | [] => .error .NotFound
  | fs :: rest =>
    match f fs with
    | .ok v => .ok v
    | .error _ => firstOk rest f

/-- Rust `OverlayFs::open_file` (src/fs/overlay_fs.rs lines 41-49). -/
def OverlayFs.open_file (o : OverlayFs) (path : String) : Except FsError (List Nat) :=
  firstOk o.layers (fun fs => fs.open_file (normalize_path path))

/-- Rust `OverlayFs::metadata` (src/fs/overlay_fs.rs lines 51-59). -/
def OverlayFs.metadata (o : OverlayFs) (path : String) : Except FsError FileMetadata :=
  firstOk o.layers (fun fs => fs.metadata (normalize_path path))

/-- Rust `OverlayFs::exists` (src/fs/overlay_fs.rs lines 61-64). -/
def OverlayFs.existsb (o : OverlayFs) (path : String) : Bool :=
  o.layers.any (fun fs => fs.existsb (normalize_path path))

/-- The result of a Rust call that either panics or returns a value: needed for
`NoOpFs`, whose methods are `unimplemented!`. -/
inductive PanicOr (α : Type) where
  | panics (msg : String)
  | returns (v : α)
deriving DecidableEq

/-- Rust `NoOpFs` (src/fs/noop_fs.rs lines 3-9). -/
structure NoOpFs where

/-- Rust `NoOpFs::new`. -/
def NoOpFs.new : NoOpFs := ⟨⟩

/-- Rust `NoOpFs::read_dir` (src/fs/noop_fs.rs lines 12-14): `unimplemented!`. -/
def NoOpFs.read_dir (_ : NoOpFs) (_ : String) : PanicOr (Except FsError (List String)) :=
  .panics "not implemented: no-op filesystem"

/-- Rust `NoOpFs::open_file` (src/fs/noop_fs.rs lines 16-18): `unimplemented!`. -/
def NoOpFs.open_file (_ : NoOpFs) (_ : String) : PanicOr (Except FsError (List Nat)) :=
  .panics "not implemented: no-op filesystem"

/-- Rust `NoOpFs::metadata` (src/fs/noop_fs.rs lines 20-22): `unimplemented!`. -/
def NoOpFs.metadata (_ : NoOpFs) (_ : String) : PanicOr (Except FsError FileMetadata) :=
  .panics "not implemented: no-op filesystem"

/-- Rust `NoOpFs::exists` (src/fs/noop_fs.rs lines 24-26): `unimplemented!`. -/
def NoOpFs.existsb (_ : NoOpFs) (_ : String) : PanicOr Bool :=
  .panics "not implemented: no-op filesystem"

/-- A canonical-path segment as produced by the normalizer's accumulator: not
empty, not `.`, not `..`, and free of `/`. -/
def goodSeg (s : List Char) : Prop :=
  s ≠ [] ∧ s ≠ ['.'] ∧ s ≠ ['.', '.'] ∧ ∀ c ∈ s, c ≠ '/'

/-! ### Concrete stores used by the spec's scenarios

Test fixtures: concrete layers and archives on which the spec's overlay and
archive scenarios are evaluated.  The layers are arbitrary `dyn SimpleFs`
implementors, as in the spec's overlay examples. -/

/-- Bytes `X` of the shadowing scenario. -/
def xBytes : List Nat := [88]

/-- Bytes `Y` of the shadowing scenario. -/
def yBytes : List Nat := [89]

/-- Base layer of the overlay scenarios: holds `config.json` (contents `X`)
and `assets/a.png`. -/
def baseLayer : SimpleFs where
  read_dir := fun p =>
    if p = "" then .ok ["assets", "config.json"]
    else if p = "assets" then .ok ["assets/a.png"]
    else .error .NotFound
  open_file := fun p =>
    if p = "config.json" then .ok xBytes
    else if p = "assets/a.png" then .ok [10]
    else .error .NotFound
  metadata := fun p =>
    if p = "config.json" then .ok ⟨1, false⟩
    else if p = "assets/a.png" then .ok ⟨1, false⟩
    else if p = "assets" then .ok ⟨0, true⟩
    else .error .NotFound
  existsb := fun p => p == "config.json" || p == "assets/a.png" || p == "assets"

/-- Mod layer of the union scenario: holds only `assets/b.png`. -/
def modLayer : SimpleFs where
  read_dir := fun p =>
    if p = "" then .ok ["assets"]
    else if p = "assets" then .ok ["assets/b.png"]
    else .error .NotFound
  open_file := fun p =>
    if p = "assets/b.png" then .ok [11] else .error .NotFound
  metadata := fun p =>
    if p = "assets/b.png" then .ok ⟨1, false⟩
    else if p = "assets" then .ok ⟨0, true⟩
    else .error .NotFound
  existsb := fun p => p == "assets/b.png" || p == "assets"

/-- Mod layer of the shadowing scenario: provides `config.json` with
contents `Y`. -/
def modCfgLayer : SimpleFs where
  read_dir := fun p =>
    if p = "" then .ok ["config.json"] else .error .NotFound
  open_file := fun p =>
    if p = "config.json" then .ok yBytes else .error .NotFound
  metadata := fun p =>
    if p = "config.json" then .ok ⟨1, false⟩ else .error .NotFound
  existsb := fun p => p == "config.json"

/-- A layer whose directory `d` exists but is empty: `read_dir "d"` succeeds
with an empty listing; everything else fails. -/
def emptyDirLayer : SimpleFs where
  read_dir := fun p => if p = "d" then .ok [] else .error .NotFound
  open_file := fun _ => .error .NotFound
  metadata := fun p => if p = "d" then .ok ⟨0, true⟩ else .error .NotFound
  existsb := fun p => p == "d"

/-- Archive containing `a/b/c.txt` with no explicit record for `a` or `a/b`
(the loose root file `d.txt` keeps the root-prefix heuristic from firing). -/
def c4Archive : List RawEntry := [⟨"a/b/c.txt", [99]⟩, ⟨"d.txt", [100]⟩]

/-- Archive whose entries are all prefixed `root/`. -/
def c5Archive : List RawEntry := [⟨"root/a/b.txt", [1]⟩, ⟨"root/c.txt", [2]⟩]

/-- Archive with an explicit childless directory record `a/` (plus a loose
root file so that no root prefix is detected). -/
def c6Archive : List RawEntry := [⟨"a/", []⟩, ⟨"b.txt", [7]⟩]

/-- A non-empty archive with root-level content. -/
def c10Archive : List RawEntry := [⟨"x.txt", [1]⟩, ⟨"y/", []⟩]

/-! ### Order lemmas for `ltChars` / `strLt` -/

theorem ltChars_cons_iff (x y : Char) (xs ys : List Char) :
    ltChars (x :: xs) (y :: ys) = true ↔
      x.toNat < y.toNat ∨ (x.toNat = y.toNat ∧ ltChars xs ys = true) := by
  simp only [ltChars]
  by_cases h1 : x.toNat < y.toNat
  · simp [h1]
  · by_cases h2 : y.toNat < x.toNat
    · simp [h1, h2]
      omega
    · have heq : x.toNat = y.toNat := by omega
      simp [h1, h2, heq]

theorem ltChars_trans :
    ∀ (a b c : List Char), ltChars a b = true → ltChars b c = true → ltChars a c = true := by
  intro a
  induction a with
  | nil =>
    intro b c h1 h2
    cases b with
    | nil => simp [ltChars] at h1
    | cons y ys =>
      cases c with
      | nil => simp [ltChars] at h2
      | cons z zs => simp [ltChars]
  | cons x xs ih =>
    intro b c h1 h2
    cases b with
    | nil => simp [ltChars] at h1
    | cons y ys =>
      cases c with
      | nil => simp [ltChars] at h2
      | cons z zs =>
        rw [ltChars_cons_iff] at h1 h2 ⊢
        rcases h1 with h1 | ⟨h1e, h1t⟩
        · rcases h2 with h2 | ⟨h2e, h2t⟩
          · exact Or.inl (by omega)
          · exact Or.inl (by omega)
        · rcases h2 with h2 | ⟨h2e, h2t⟩
          · exact Or.inl (by omega)
          · exact Or.inr ⟨by omega, ih ys zs h1t h2t⟩

theorem char_eq_of_toNat_eq {a b : Char} (h : a.toNat = b.toNat) : a = b :=
  Char.eq_of_val_eq (UInt32.ext h)

theorem ltChars_total :
    ∀ (a b : List Char), ltChars a b = true ∨ a = b ∨ ltChars b a = true := by
  intro a
  induction a with
  | nil =>
    intro b
    cases b with
    | nil => right; left; rfl
    | cons y ys => left; simp [ltChars]
  | cons x xs ih =>
    intro b
    cases b with
    | nil => right; right; simp [ltChars]
    | cons y ys =>
      rcases Nat.lt_trichotomy x.toNat y.toNat with hlt | heq | hgt
      · left
        rw [ltChars_cons_iff]
        exact Or.inl hlt
      · have hxy : x = y := char_eq_of_toNat_eq heq
        subst hxy
        rcases ih ys with h | h | h
        · left
          rw [ltChars_cons_iff]
          exact Or.inr ⟨rfl, h⟩
        · right; left; rw [h]
        · right; right
          rw [ltChars_cons_iff]
          exact Or.inr ⟨rfl, h⟩
      · right; right
        rw [ltChars_cons_iff]
        exact Or.inl hgt

theorem strLt_trans {a b c : String} (h1 : strLt a b = true) (h2 : strLt b c = true) :
    strLt a c = true :=
  ltChars_trans _ _ _ h1 h2

theorem strLt_total (a b : String) : strLt a b = true ∨ a = b ∨ strLt b a = true := by
  rcases ltChars_total a.toList b.toList with h | h | h
  · exact Or.inl h
  · refine Or.inr (Or.inl ?h)
    cases a with
    | mk da =>
      cases b with
      | mk db => simpa [String.toList] using congrArg String.mk h
  · exact Or.inr (Or.inr h)

/-! ### Lemmas about `insertSorted` and `sortDedup` -/

theorem mem_insertSorted (x a : String) :
    ∀ (l : List String), a ∈ insertSorted x l ↔ a = x ∨ a ∈ l := by
  intro l
  induction l with
  | nil => simp [insertSorted]
  | cons y rest ih =>
    simp only [insertSorted]
    split_ifs with hxy hlt
    · subst hxy
      simp only [List.mem_cons]
      tauto
    · simp only [List.mem_cons]
    · simp only [List.mem_cons, ih]
      tauto

theorem pairwise_insertSorted (x : String) :
    ∀ (l : List String), l.Pairwise (fun a b => strLt a b = true) →
      (insertSorted x l).Pairwise (fun a b => strLt a b = true) := by
  intro l
  induction l with
  | nil =>
    intro _
    simp [insertSorted]
  | cons y rest ih =>
    intro hp
    rw [List.pairwise_cons] at hp
    obtain ⟨hy, hrest⟩ := hp
    simp only [insertSorted]
    split_ifs with hxy hlt
    · subst hxy
      rw [List.pairwise_cons]
      exact ⟨hy, hrest⟩
    · rw [List.pairwise_cons]
      constructor
      · intro b hb
        rcases List.mem_cons.mp hb with rfl | hbr
        · exact hlt
        · exact strLt_trans hlt (hy b hbr)
      · rw [List.pairwise_cons]
        exact ⟨hy, hrest⟩
    · have hyx : strLt y x = true := by
        rcases strLt_total x y with h | h | h
        · exact absurd h hlt
        · exact absurd h hxy
        · exact h
      rw [List.pairwise_cons]
      constructor
      · intro b hb
        rcases (mem_insertSorted x b rest).mp hb with rfl | hbr
        · exact hyx
        · exact hy b hbr
      · exact ih hrest

theorem mem_foldl_insertSorted :
    ∀ (l acc : List String) (a : String),
      a ∈ l.foldl (fun acc s => insertSorted s acc) acc ↔ a ∈ acc ∨ a ∈ l := by
  intro l
  induction l with
  | nil => simp
  | cons s rest ih =>
    intro acc a
    simp only [List.foldl_cons]
    rw [ih (insertSorted s acc) a, mem_insertSorted]
    simp
    tauto

theorem pairwise_foldl_insertSorted :
    ∀ (l acc : List String),
      acc.Pairwise (fun a b => strLt a b = true) →
      (l.foldl (fun acc s => insertSorted s acc) acc).Pairwise (fun a b => strLt a b = true) := by
  intro l
  induction l with
  | nil => intro acc h; simpa using h
  | cons s rest ih =>
    intro acc h
    simp only [List.foldl_cons]
    exact ih _ (pairwise_insertSorted s acc h)

theorem mem_sortDedup (l : List String) (a : String) : a ∈ sortDedup l ↔ a ∈ l := by
  unfold sortDedup
  rw [mem_foldl_insertSorted]
  simp

theorem pairwise_sortDedup (l : List String) :
    (sortDedup l).Pairwise (fun a b => strLt a b = true) :=
  pairwise_foldl_insertSorted l [] (by simp)

/-! ### Lemmas about the overlay's collection and fall-through loops -/

theorem ne_nil_iff_exists_mem {α : Type} (l : List α) : l ≠ [] ↔ ∃ a, a ∈ l := by
  cases l with
  | nil => simp
  | cons x xs =>
    constructor
    · intro _
      exact ⟨x, List.mem_cons_self x xs⟩
    · intro _
      exact List.cons_ne_nil x xs

theorem mem_collect_aux (path : String) :
    ∀ (layers : List SimpleFs) (acc : List String) (a : String),
      a ∈ layers.foldl
        (fun acc fs =>
          match fs.read_dir path with
          | .ok entries => acc ++ entries
          | .error _ => acc) acc ↔
      a ∈ acc ∨ ∃ fs ∈ layers, ∃ l, fs.read_dir path = .ok l ∧ a ∈ l := by
  intro layers
  induction layers with
  | nil => simp
  | cons fs rest ih =>
    intro acc a
    simp only [List.foldl_cons]
    cases h : fs.read_dir path with
    | ok entries =>
      rw [ih]
      constructor
      · rintro (ha | ha)
        · rcases List.mem_append.mp ha with ha | ha
          · exact Or.inl ha
          · exact Or.inr ⟨fs, List.mem_cons_self _ _, entries, h, ha⟩
        · obtain ⟨g, hg, l, hl, hal⟩ := ha
          exact Or.inr ⟨g, List.mem_cons_of_mem _ hg, l, hl, hal⟩
      · rintro (ha | ⟨g, hg, l, hl, hal⟩)
        · exact Or.inl (List.mem_append.mpr (Or.inl ha))
        · rcases List.mem_cons.mp hg with rfl | hg'
          · rw [h] at hl
            cases hl
            exact Or.inl (List.mem_append.mpr (Or.inr hal))
          · exact Or.inr ⟨g, hg', l, hl, hal⟩
    | error e =>
      rw [ih]
      constructor
      · rintro (ha | ⟨g, hg, l, hl, hal⟩)
        · exact Or.inl ha
        · exact Or.inr ⟨g, List.mem_cons_of_mem _ hg, l, hl, hal⟩
      · rintro (ha | ⟨g, hg, l, hl, hal⟩)
        · exact Or.inl ha
        · rcases List.mem_cons.mp hg with rfl | hg'
          · rw [h] at hl
            cases hl
          · exact Or.inr ⟨g, hg', l, hl, hal⟩

theorem mem_collectDirEntries (layers : List SimpleFs) (path a : String) :
    a ∈ collectDirEntries layers path ↔
      ∃ fs ∈ layers, ∃ l, fs.read_dir path = .ok l ∧ a ∈ l := by
  unfold collectDirEntries
  rw [mem_collect_aux]
  simp

theorem collectDirEntries_ne_nil (layers : List SimpleFs) (path : String) :
    collectDirEntries layers path ≠ [] ↔
      ∃ fs ∈ layers, ∃ l, fs.read_dir path = .ok l ∧ l ≠ [] := by
  rw [ne_nil_iff_exists_mem]
  constructor
  · rintro ⟨a, ha⟩
    obtain ⟨fs, hfs, l, hl, hal⟩ := (mem_collectDirEntries layers path a).mp ha
    exact ⟨fs, hfs, l, hl, (ne_nil_iff_exists_mem l).mpr ⟨a, hal⟩⟩
  · rintro ⟨fs, hfs, l, hl, hne⟩
    obtain ⟨a, ha⟩ := (ne_nil_iff_exists_mem l).mp hne
    exact ⟨a, (mem_collectDirEntries layers path a).mpr ⟨fs, hfs, l, hl, ha⟩⟩

theorem firstOk_cons_ok {α : Type} (f : SimpleFs → Except FsError α) (fs : SimpleFs)
    (rest : List SimpleFs) (v : α) (h : f fs = .ok v) :
    firstOk (fs :: rest) f = .ok v := by
  simp [firstOk, h]

theorem firstOk_append_errors {α : Type} (f : SimpleFs → Except FsError α) :
    ∀ (pre rest : List SimpleFs), (∀ g ∈ pre, ∃ e, f g = .error e) →
      firstOk (pre ++ rest) f = firstOk rest f := by
  intro pre
  induction pre with
  | nil => simp
  | cons g gs ih =>
    intro rest h
    obtain ⟨e, he⟩ := h g (by simp)
    simp only [List.cons_append, firstOk, he]
    exact ih rest (fun g' hg' => h g' (by simp [hg']))

/-! ### Lemmas about the archive store's maps -/

theorem alookup_insertReplace {α : Type} :
    ∀ (m : List (String × α)) (k : String) (v : α) (key : String),
      alookup (insertReplace m k v) key = if k = key then some v else alookup m key := by
  intro m
  induction m with
  | nil =>
    intro k v key
    simp [insertReplace, alookup]
  | cons p rest ih =>
    intro k v key
    obtain ⟨k', w⟩ := p
    by_cases hk : k' = k
    · subst hk
      by_cases hkey : k' = key <;> simp [insertReplace, alookup, hkey]
    · have hIR : insertReplace ((k', w) :: rest) k v = (k', w) :: insertReplace rest k v := by
        simp [insertReplace, hk]
      rw [hIR]
      by_cases h1 : k' = key
      · have h2 : ¬ k = key := fun h => hk (h1.trans h.symm)
        simp [alookup, h1, h2]
      · by_cases h2 : k = key <;> simp [alookup, h1, h2, ih]

theorem alookup_isSome_insertReplace {α : Type} (m : List (String × α)) (k : String) (v : α)
    (key : String) :
    (alookup (insertReplace m k v) key).isSome = true ↔
      k = key ∨ (alookup m key).isSome = true := by
  rw [alookup_insertReplace]
  by_cases h : k = key <;> simp [h]

theorem alookup_isSome_iff_exists {α : Type} :
    ∀ (m : List (String × α)) (key : String),
      (alookup m key).isSome = true ↔ ∃ p ∈ m, p.1 = key := by
  intro m
  induction m with
  | nil => simp [alookup]
  | cons p rest ih =>
    intro key
    obtain ⟨k, v⟩ := p
    by_cases hk : k = key
    · subst hk
      simp [alookup]
    · simp only [alookup, if_neg hk, ih]
      constructor
      · rintro ⟨q, hq, hq1⟩
        exact ⟨q, List.mem_cons_of_mem _ hq, hq1⟩
      · rintro ⟨q, hq, hq1⟩
        rcases List.mem_cons.mp hq with rfl | hq'
        · exact absurd hq1 hk
        · exact ⟨q, hq', hq1⟩

theorem exists_key_insertDirMap :
    ∀ (dm : List (String × List String)) (parent n key : String),
      (∃ p ∈ insertDirMap dm parent n, p.1 = key) ↔
        parent = key ∨ ∃ p ∈ dm, p.1 = key := by
  intro dm
  induction dm with
  | nil =>
    intro parent n key
    simp [insertDirMap]
  | cons q rest ih =>
    intro parent n key
    obtain ⟨k, s⟩ := q
    by_cases hk : k = parent
    · rw [insertDirMap, if_pos hk]
      constructor
      · rintro ⟨p, hp, hp1⟩
        rcases List.mem_cons.mp hp with heq | hp'
        · left
          rw [← hk, ← hp1, heq]
        · exact Or.inr ⟨p, List.mem_cons_of_mem _ hp', hp1⟩
      · rintro (heq | ⟨p, hp, hp1⟩)
        · exact ⟨(k, insertSorted n s), List.mem_cons_self _ _, hk.trans heq⟩
        · rcases List.mem_cons.mp hp with heq2 | hp'
          · refine ⟨(k, insertSorted n s), List.mem_cons_self _ _, ?e⟩
            rw [← hp1, heq2]
          · exact ⟨p, List.mem_cons_of_mem _ hp', hp1⟩
    · rw [insertDirMap, if_neg hk]
      constructor
      · rintro ⟨p, hp, hp1⟩
        rcases List.mem_cons.mp hp with heq | hp'
        · exact Or.inr ⟨(k, s), List.mem_cons_self _ _, by rw [← hp1, heq]⟩
        · rcases (ih parent n key).mp ⟨p, hp', hp1⟩ with h | ⟨q2, hq, hq1⟩
          · exact Or.inl h
          · exact Or.inr ⟨q2, List.mem_cons_of_mem _ hq, hq1⟩
      · rintro (h | ⟨p, hp, hp1⟩)
        · obtain ⟨p, hp, hp1⟩ := (ih parent n key).mpr (Or.inl h)
          exact ⟨p, List.mem_cons_of_mem _ hp, hp1⟩
        · rcases List.mem_cons.mp hp with heq | hp'
          · exact ⟨(k, s), List.mem_cons_self _ _, by rw [← hp1, heq]⟩
          · obtain ⟨q2, hq, hq1⟩ := (ih parent n key).mpr (Or.inr ⟨p, hp', hp1⟩)
            exact ⟨q2, List.mem_cons_of_mem _ hq, hq1⟩

theorem buildMaps_fst_isSome (plen : Nat) :
    ∀ (l : List RawEntry) (i : Nat) (es : List (String × ZipEntry))
      (dm : List (String × List String)) (key : String),
      (alookup (buildMaps plen i l (es, dm)).1 key).isSome = true ↔
        (alookup es key).isSome = true ∨
          (key ≠ "" ∧ ∃ e ∈ l, normKey plen e.name = key) := by
  intro l
  induction l with
  | nil =>
    intro i es dm key
    simp [buildMaps]
  | cons e rest ih =>
    intro i es dm key
    simp only [buildMaps]
    rw [ih]
    have hstep :
        (alookup
          (if normKey plen e.name = "" then es
           else insertReplace es (normKey plen e.name)
             ⟨i, endsWithSlash e.name, e.data.length⟩) key).isSome = true ↔
          (alookup es key).isSome = true ∨ (key ≠ "" ∧ normKey plen e.name = key) := by
      by_cases hn : normKey plen e.name = ""
      · rw [if_pos hn]
        constructor
        · exact Or.inl
        · rintro (h | ⟨hne, hkey⟩)
          · exact h
          · exact absurd (hn ▸ hkey) (Ne.symm hne)
      · rw [if_neg hn, alookup_isSome_insertReplace]
        constructor
        · rintro (h | h)
          · exact Or.inr ⟨h ▸ hn, h⟩
          · exact Or.inl h
        · rintro (h | ⟨_, hkey⟩)
          · exact Or.inr h
          · exact Or.inl hkey
    rw [hstep]
    constructor
    · rintro ((h | ⟨hne, hkey⟩) | ⟨hne, e', he', hkey⟩)
      · exact Or.inl h
      · exact Or.inr ⟨hne, e, List.mem_cons_self _ _, hkey⟩
      · exact Or.inr ⟨hne, e', List.mem_cons_of_mem _ he', hkey⟩
    · rintro (h | ⟨hne, e', he', hkey⟩)
      · exact Or.inl (Or.inl h)
      · rcases List.mem_cons.mp he' with rfl | he''
        · exact Or.inl (Or.inr ⟨hne, hkey⟩)
        · exact Or.inr ⟨hne, e', he'', hkey⟩

theorem buildMaps_snd_keys (plen : Nat) :
    ∀ (l : List RawEntry) (i : Nat) (es : List (String × ZipEntry))
      (dm : List (String × List String)) (key : String),
      (∃ p ∈ (buildMaps plen i l (es, dm)).2, p.1 = key) ↔
        (∃ p ∈ dm, p.1 = key) ∨
          ∃ e ∈ l, (splitParent (normKey plen e.name)).1 = key := by
  intro l
  induction l with
  | nil =>
    intro i es dm key
    simp [buildMaps]
  | cons e rest ih =>
    intro i es dm key
    simp only [buildMaps]
    rw [ih, exists_key_insertDirMap]
    constructor
    · rintro ((h | h) | ⟨e', he', hkey⟩)
      · exact Or.inr ⟨e, List.mem_cons_self _ _, h⟩
      · exact Or.inl h
      · exact Or.inr ⟨e', List.mem_cons_of_mem _ he', hkey⟩
    · rintro (h | ⟨e', he', hkey⟩)
      · exact Or.inl (Or.inr h)
      · rcases List.mem_cons.mp he' with rfl | he''
        · exact Or.inl (Or.inl hkey)
        · exact Or.inr ⟨e', he'', hkey⟩

theorem synthDirs_isSome :
    ∀ (dm : List (String × List String)) (es : List (String × ZipEntry)) (key : String),
      (alookup (synthDirs dm es) key).isSome = true ↔
        (alookup es key).isSome = true ∨ (key ≠ "" ∧ ∃ p ∈ dm, p.1 = key) := by
  intro dm
  induction dm with
  | nil =>
    intro es key
    simp [synthDirs]
  | cons q rest ih =>
    intro es key
    obtain ⟨k, s⟩ := q
    simp only [synthDirs]
    rw [ih]
    have hstep :
        (alookup (if alookup es k = none ∧ k ≠ "" then insertReplace es k ⟨0, true, 0⟩ else es)
          key).isSome = true ↔
          (alookup es key).isSome = true ∨ (key ≠ "" ∧ k = key) := by
      by_cases hc : alookup es k = none ∧ k ≠ ""
      · rw [if_pos hc, alookup_isSome_insertReplace]
        constructor
        · rintro (h | h)
          · exact Or.inr ⟨h ▸ hc.2, h⟩
          · exact Or.inl h
        · rintro (h | ⟨_, hkey⟩)
          · exact Or.inr h
          · exact Or.inl hkey
      · rw [if_neg hc]
        constructor
        · exact Or.inl
        · rintro (h | ⟨hne, hkey⟩)
          · exact h
          · rcases not_and_or.mp hc with h' | h'
            · rw [← hkey]
              exact Option.ne_none_iff_isSome.mp h'
            · have hk0 : k = "" := not_not.mp h'
              exact absurd (hkey.symm.trans hk0) hne
    rw [hstep]
    constructor
    · rintro ((h | ⟨hne, hkey⟩) | ⟨hne, p, hp, hkey⟩)
      · exact Or.inl h
      · exact Or.inr ⟨hne, (k, s), List.mem_cons_self _ _, hkey⟩
      · exact Or.inr ⟨hne, p, List.mem_cons_of_mem _ hp, hkey⟩
    · rintro (h | ⟨hne, p, hp, hkey⟩)
      · exact Or.inl (Or.inl h)
      · rcases List.mem_cons.mp hp with rfl | hp'
        · exact Or.inl (Or.inr ⟨hne, hkey⟩)
        · exact Or.inr ⟨hne, p, hp', hkey⟩

theorem zip_entries_isSome (ar : List RawEntry) (key : String) :
    (alookup (ZipFs.new ar).entries key).isSome = true ↔
      key ≠ "" ∧ ∃ e ∈ ar,
        (normKey (zipPlen ar) e.name = key ∨
          (splitParent (normKey (zipPlen ar) e.name)).1 = key) := by
  show (alookup (synthDirs _ _) key).isSome = true ↔ _
  rw [synthDirs_isSome, buildMaps_fst_isSome, buildMaps_snd_keys]
  simp only [alookup, Option.isSome_none, Bool.false_eq_true, false_or, List.not_mem_nil,
    false_and, exists_false, or_false, false_or]
  constructor
  · rintro (⟨hne, e, he, hkey⟩ | ⟨hne, e, he, hkey⟩)
    · exact ⟨hne, e, he, Or.inl hkey⟩
    · exact ⟨hne, e, he, Or.inr hkey⟩
  · rintro ⟨hne, e, he, hkey | hkey⟩
    · exact Or.inl ⟨hne, e, he, hkey⟩
    · exact Or.inr ⟨hne, e, he, hkey⟩

theorem zip_dir_map_isSome (ar : List RawEntry) (key : String) :
    (alookup (ZipFs.new ar).dir_map key).isSome = true ↔
      ∃ e ∈ ar, (splitParent (normKey (zipPlen ar) e.name)).1 = key := by
  show (alookup (buildMaps _ _ _ _).2 key).isSome = true ↔ _
  rw [alookup_isSome_iff_exists, buildMaps_snd_keys]
  simp

theorem get?_isSome_of_lt {α : Type} :
    ∀ (l : List α) (n : Nat), n < l.length → ∃ x, l.get? n = some x := by
  intro l
  induction l with
  | nil =>
    intro n h
    simp at h
  | cons x xs ih =>
    intro n h
    cases n with
    | zero => exact ⟨x, rfl⟩
    | succ m => exact ih m (by simpa using h)

theorem buildMaps_index_lt (plen : Nat) :
    ∀ (l : List RawEntry) (i : Nat) (es : List (String × ZipEntry))
      (dm : List (String × List String)) (key : String) (e : ZipEntry),
      alookup (buildMaps plen i l (es, dm)).1 key = some e →
      alookup es key = some e ∨ (i ≤ e.index ∧ e.index < i + l.length) := by
  intro l
  induction l with
  | nil =>
    intro i es dm key e h
    exact Or.inl h
  | cons hd rest ih =>
    intro i es dm key e h
    simp only [buildMaps] at h
    rcases ih (i + 1) _ _ key e h with h' | ⟨h1, h2⟩
    · by_cases hn : normKey plen hd.name = ""
      · rw [if_pos hn] at h'
        exact Or.inl h'
      · rw [if_neg hn, alookup_insertReplace] at h'
        by_cases hk : normKey plen hd.name = key
        · rw [if_pos hk] at h'
          injection h' with h''
          subst h''
          refine Or.inr ⟨Nat.le_refl i, ?_⟩
          simp only [List.length_cons]
          omega
        · rw [if_neg hk] at h'
          exact Or.inl h'
    · refine Or.inr ⟨by omega, ?_⟩
      simp only [List.length_cons]
      omega

theorem synthDirs_some_inv :
    ∀ (dm : List (String × List String)) (es : List (String × ZipEntry)) (key : String)
      (e : ZipEntry),
      alookup (synthDirs dm es) key = some e →
      alookup es key = some e ∨ e.is_dir = true := by
  intro dm
  induction dm with
  | nil =>
    intro es key e h
    exact Or.inl h
  | cons q rest ih =>
    intro es key e h
    obtain ⟨k, s⟩ := q
    simp only [synthDirs] at h
    rcases ih _ key e h with h' | h'
    · by_cases hc : alookup es k = none ∧ k ≠ ""
      · rw [if_pos hc, alookup_insertReplace] at h'
        by_cases hk : k = key
        · rw [if_pos hk] at h'
          injection h' with h''
          subst h''
          exact Or.inr rfl
        · rw [if_neg hk] at h'
          exact Or.inl h'
      · rw [if_neg hc] at h'
        exact Or.inl h'
    · exact Or.inr h'

theorem zip_nondir_index_lt (ar : List RawEntry) (key : String) (e : ZipEntry)
    (h : alookup (ZipFs.new ar).entries key = some e) (hnd : e.is_dir = false) :
    e.index < ar.length := by
  have h0 : alookup (synthDirs (buildMaps (zipPlen ar) 0 ar ([], [])).2
      (buildMaps (zipPlen ar) 0 ar ([], [])).1) key = some e := h
  rcases synthDirs_some_inv _ _ key e h0 with h' | h'
  · rcases buildMaps_index_lt (zipPlen ar) ar 0 [] [] key e h' with h'' | ⟨-, h2⟩
    · simp [alookup] at h''
    · simpa using h2
  · rw [h'] at hnd
    simp at hnd

/-! ### Lemmas about the path normalizer -/

theorem splitSlash_ne_nil : ∀ (l : List Char), splitSlash l ≠ [] := by
  intro l
  induction l with
  | nil => simp [splitSlash]
  | cons c rest ih =>
    simp only [splitSlash]
    by_cases hc : c = '/'
    · simp [hc]
    · simp only [if_neg hc]
      cases h : splitSlash rest with
      | nil => simp
      | cons s ss => simp

theorem splitSlash_slash (l : List Char) : splitSlash ('/' :: l) = [] :: splitSlash l := by
  simp [splitSlash]

theorem splitSlash_cons_of_ne (c : Char) (hc : c ≠ '/') (l : List Char) (h : List Char)
    (t : List (List Char)) (hsplit : splitSlash l = h :: t) :
    splitSlash (c :: l) = (c :: h) :: t := by
  simp [splitSlash, hc, hsplit]

theorem splitSlash_append :
    ∀ (s : List Char), (∀ c ∈ s, c ≠ '/') →
      ∀ (l h : List Char) (t : List (List Char)), splitSlash l = h :: t →
        splitSlash (s ++ l) = (s ++ h) :: t := by
  intro s
  induction s with
  | nil =>
    intro _ l h t hl
    simpa using hl
  | cons c cs ih =>
    intro hs l h t hl
    have hc : c ≠ '/' := hs c (List.mem_cons_self _ _)
    have hcs : ∀ x ∈ cs, x ≠ '/' := fun x hx => hs x (List.mem_cons_of_mem _ hx)
    rw [List.cons_append]
    exact splitSlash_cons_of_ne c hc _ _ _ (ih hcs l h t hl)

theorem splitSlash_no_slash (s : List Char) (hs : ∀ c ∈ s, c ≠ '/') :
    splitSlash s = [s] := by
  have h := splitSlash_append s hs [] [] [] rfl
  simpa using h

theorem splitSlash_chunks : ∀ (l : List Char), ∀ s ∈ splitSlash l, ∀ c ∈ s, c ≠ '/' := by
  intro l
  induction l with
  | nil =>
    intro s hs
    simp [splitSlash] at hs
    subst hs
    simp
  | cons c rest ih =>
    intro s hs
    by_cases hc : c = '/'
    · subst hc
      rw [splitSlash_slash] at hs
      rcases List.mem_cons.mp hs with rfl | hs'
      · simp
      · exact ih s hs'
    · cases h : splitSlash rest with
      | nil => exact absurd h (splitSlash_ne_nil rest)
      | cons s0 ss =>
        rw [splitSlash_cons_of_ne c hc rest s0 ss h] at hs
        rcases List.mem_cons.mp hs with rfl | hs'
        · intro x hx
          rcases List.mem_cons.mp hx with rfl | hx'
          · exact hc
          · exact ih s0 (by rw [h]; exact List.mem_cons_self s0 ss) x hx'
        · exact ih s (by rw [h]; exact List.mem_cons_of_mem _ hs')

theorem joinSlash_cons (s : List Char) (rest : List (List Char)) (hr : rest ≠ []) :
    joinSlash (s :: rest) = s ++ '/' :: joinSlash rest := by
  cases rest with
  | nil => exact absurd rfl hr
  | cons t r => rfl

theorem splitSlash_joinSlash :
    ∀ (parts : List (List Char)), parts ≠ [] →
      (∀ s ∈ parts, ∀ c ∈ s, c ≠ '/') → splitSlash (joinSlash parts) = parts := by
  intro parts
  induction parts with
  | nil =>
    intro h
    exact absurd rfl h
  | cons s rest ih =>
    intro _ hns
    cases rest with
    | nil => exact splitSlash_no_slash s (hns s (List.mem_cons_self _ _))
    | cons t r =>
      rw [joinSlash_cons s (t :: r) (by simp)]
      have hrec : splitSlash (joinSlash (t :: r)) = t :: r :=
        ih (by simp) (fun x hx => hns x (List.mem_cons_of_mem _ hx))
      have hslash : splitSlash ('/' :: joinSlash (t :: r)) = [] :: t :: r := by
        rw [splitSlash_slash, hrec]
      have h := splitSlash_append s (hns s (List.mem_cons_self _ _))
        ('/' :: joinSlash (t :: r)) [] (t :: r) hslash
      simpa using h

theorem normSegs_good :
    ∀ (segs acc : List (List Char)),
      (∀ s ∈ acc, goodSeg s) → (∀ s ∈ segs, ∀ c ∈ s, c ≠ '/') →
      ∀ s ∈ normSegs acc segs, goodSeg s := by
  intro segs
  induction segs with
  | nil =>
    intro acc hacc _ s hs
    exact hacc s hs
  | cons part rest ih =>
    intro acc hacc hsegs
    simp only [normSegs]
    split_ifs with h1 h2
    · exact ih acc hacc (fun s hs => hsegs s (List.mem_cons_of_mem _ hs))
    · exact ih acc.tail (fun s hs => hacc s (List.mem_of_mem_tail hs))
        (fun s hs => hsegs s (List.mem_cons_of_mem _ hs))
    · refine ih (part :: acc) ?push (fun s hs => hsegs s (List.mem_cons_of_mem _ hs))
      intro s hs
      rcases List.mem_cons.mp hs with rfl | hs'
      · exact ⟨fun h => h1 (Or.inl h), fun h => h1 (Or.inr h), h2,
          hsegs s (List.mem_cons_self _ _)⟩
      · exact hacc s hs'

theorem normSegs_of_good :
    ∀ (segs acc : List (List Char)),
      (∀ s ∈ segs, goodSeg s) → normSegs acc segs = segs.reverse ++ acc := by
  intro segs
  induction segs with
  | nil =>
    intro acc _
    simp [normSegs]
  | cons part rest ih =>
    intro acc hsegs
    obtain ⟨hne, hnd, hndd, -⟩ := hsegs part (List.mem_cons_self _ _)
    simp only [normSegs]
    rw [if_neg (by rintro (h | h); exacts [hne h, hnd h]), if_neg hndd]
    rw [ih (part :: acc) (fun s hs => hsegs s (List.mem_cons_of_mem _ hs))]
    simp

theorem string_mk_toList (s : String) : String.mk s.toList = s := by
  cases s
  rfl

theorem normalize_join_of_good (parts : List (List Char)) (h : ∀ s ∈ parts, goodSeg s) :
    normalize_path (String.mk (joinSlash parts)) = String.mk (joinSlash parts) := by
  cases parts with
  | nil => rfl
  | cons s rest =>
    have hns : ∀ x ∈ s :: rest, ∀ c ∈ x, c ≠ '/' := fun x hx => (h x hx).2.2.2
    have hsplit : splitSlash (joinSlash (s :: rest)) = s :: rest :=
      splitSlash_joinSlash (s :: rest) (by simp) hns
    unfold normalize_path
    rw [show (String.mk (joinSlash (s :: rest))).toList = joinSlash (s :: rest) from rfl]
    rw [hsplit, normSegs_of_good (s :: rest) [] h]
    simp

theorem normalize_path_idem (p : String) :
    normalize_path (normalize_path p) = normalize_path p := by
  have hgood : ∀ s ∈ (normSegs [] (splitSlash p.toList)).reverse, goodSeg s := by
    intro s hs
    exact normSegs_good (splitSlash p.toList) [] (by simp) (splitSlash_chunks p.toList) s
      (List.mem_reverse.mp hs)
  exact normalize_join_of_good ((normSegs [] (splitSlash p.toList)).reverse) hgood

/-! ### The claims -/

/-- C1: whenever the Overlay Combinator's `read_dir(path)` succeeds, it returns
the union of every constituent layer's listing for the normalized path,
deduplicated and in ascending sorted order; in particular, for a base layer
containing `config.json` and `assets/a.png` overlaid by a later mod layer
containing `assets/b.png`, `read_dir("assets")` returns both `assets/a.png`
and `assets/b.png`. -/
theorem overlay_read_dir_union_sorted :
    (∀ (layers : List SimpleFs) (path : String) (out : List String),
      (OverlayFs.mk layers).read_dir path = .ok out →
        out.Pairwise (fun a b => strLt a b = true)
        ∧ ∀ a, a ∈ out ↔ ∃ fs ∈ layers, ∃ l, fs.read_dir (normalize_path path) = .ok l ∧ a ∈ l)
    ∧ (OverlayFs.from_layers [baseLayer, modLayer]).read_dir "assets"
        = .ok ["assets/a.png", "assets/b.png"] := by
  constructor
  · intro layers path out h
    simp only [OverlayFs.read_dir] at h
    by_cases hc : collectDirEntries layers (normalize_path path) = []
    · rw [if_pos hc] at h
      simp at h
    · rw [if_neg hc] at h
      injection h with h2
      subst h2
      refine ⟨pairwise_sortDedup _, fun a => ?mem⟩
      rw [mem_sortDedup, mem_collectDirEntries]
  · decide

/-- C1 witness: the general statement applied to the single-layer overlay
`⟨[baseLayer]⟩` at path `assets`, whose listing is `[assets/a.png]`. -/
theorem overlay_read_dir_union_sorted_witness :
    List.Pairwise (fun a b => strLt a b = true) ["assets/a.png"]
    ∧ ∀ a, a ∈ ["assets/a.png"] ↔
        ∃ fs ∈ [baseLayer], ∃ l, fs.read_dir (normalize_path "assets") = .ok l ∧ a ∈ l :=
  overlay_read_dir_union_sorted.1 [baseLayer] "assets" ["assets/a.png"] (by decide)

/-- C2: construction reverses the caller-supplied layer list (last specified is
consulted first); `open_file` and `metadata` return the first layer's
successful result, with the layers after the first success never affecting the
outcome; hence with a base layer providing `config.json` = `X` and a
later-specified mod layer providing `config.json` = `Y`, `open_file`
returns exactly `Y`. -/
theorem overlay_first_match_shadowing :
    (∀ (ls : List SimpleFs), (OverlayFs.from_layers ls).layers = ls.reverse)
    ∧ (∀ (pre post : List SimpleFs) (fs : SimpleFs) (path : String) (r : List Nat),
        (∀ g ∈ pre, ∃ e, g.open_file (normalize_path path) = .error e) →
        fs.open_file (normalize_path path) = .ok r →
        (OverlayFs.mk (pre ++ fs :: post)).open_file path = .ok r)
    ∧ (∀ (pre post : List SimpleFs) (fs : SimpleFs) (path : String) (m : FileMetadata),
        (∀ g ∈ pre, ∃ e, g.metadata (normalize_path path) = .error e) →
        fs.metadata (normalize_path path) = .ok m →
        (OverlayFs.mk (pre ++ fs :: post)).metadata path = .ok m)
    ∧ (OverlayFs.from_layers [baseLayer, modCfgLayer]).open_file "config.json" = .ok yBytes := by
  refine ⟨fun ls => rfl, ?o, ?m, by decide⟩
  · intro pre post fs path r hpre hok
    show firstOk (pre ++ fs :: post) (fun g => g.open_file (normalize_path path)) = .ok r
    rw [firstOk_append_errors _ pre (fs :: post) hpre]
    exact firstOk_cons_ok _ fs post r hok
  · intro pre post fs path m hpre hok
    show firstOk (pre ++ fs :: post) (fun g => g.metadata (normalize_path path)) = .ok m
    rw [firstOk_append_errors _ pre (fs :: post) hpre]
    exact firstOk_cons_ok _ fs post m hok

/-- C2 witness: with no failing layers in front, `open_file` returns the first
layer's bytes (the shadowing scenario built by `from_layers`). -/
theorem overlay_first_match_shadowing_witness :
    (OverlayFs.mk ([] ++ modCfgLayer :: [baseLayer])).open_file "config.json" = .ok yBytes :=
  overlay_first_match_shadowing.2.1 [] [baseLayer] modCfgLayer "config.json" yBytes
    (fun g hg => absurd hg (List.not_mem_nil g)) (by decide)

/-- C3 counterexample: a single layer whose `read_dir "d"` succeeds with an
empty listing, while the overlay's `read_dir "d"` is `NotFound` — so a
successful (empty) layer listing does not make the overlay's `read_dir`
succeed, contrary to the claim. -/
theorem overlay_read_dir_empty_listing_cex :
    emptyDirLayer.read_dir (normalize_path "d") = .ok []
    ∧ (OverlayFs.from_layers [emptyDirLayer]).read_dir "d" = .error .NotFound := by
  decide

/-- C3 amended: the overlay's `read_dir` returns `NotFound` iff no layer's
`read_dir` on the normalized path succeeds with a nonempty listing (a layer
succeeding with an empty listing does not count, because the found-flag is set
per collected entry); moreover `NotFound` is the only error it returns. -/
theorem overlay_read_dir_notfound_amended :
    ∀ (layers : List SimpleFs) (path : String),
      ((OverlayFs.mk layers).read_dir path = .error .NotFound ↔
        ¬ ∃ fs ∈ layers, ∃ l, fs.read_dir (normalize_path path) = .ok l ∧ l ≠ [])
      ∧ ∀ e, (OverlayFs.mk layers).read_dir path = .error e → e = .NotFound := by
  intro layers path
  have h1 : (OverlayFs.mk layers).read_dir path = .error .NotFound ↔
      collectDirEntries layers (normalize_path path) = [] := by
    simp only [OverlayFs.read_dir]
    by_cases hc : collectDirEntries layers (normalize_path path) = []
    · simp [hc]
    · simp [hc]
  constructor
  · rw [h1]
    constructor
    · intro hc hex
      exact (collectDirEntries_ne_nil layers (normalize_path path)).mpr hex hc
    · intro hnex
      by_contra hc
      exact hnex ((collectDirEntries_ne_nil layers (normalize_path path)).mp hc)
  · intro e he
    simp only [OverlayFs.read_dir] at he
    by_cases hc : collectDirEntries layers (normalize_path path) = []
    · rw [if_pos hc] at he
      injection he with h2
      exact h2.symm
    · rw [if_neg hc] at he
      simp at he

/-- C3 amended witness: applied to the empty overlay at path `x`, whose
`read_dir` is `NotFound`. -/
theorem overlay_read_dir_notfound_amended_witness :
    ¬ ∃ fs ∈ ([] : List SimpleFs), ∃ l, fs.read_dir (normalize_path "x") = .ok l ∧ l ≠ [] :=
  ((overlay_read_dir_notfound_amended [] "x").1).mp (by decide)

/-- C4 evaluation at the failing input: for the archive with entries
`a/b/c.txt` and `d.txt` (no explicit record for `a` or `a/b`), only the
immediate parent `a/b` receives a synthetic directory entry; the deeper
ancestor `a` receives none, so `exists "a"` is `false` and `metadata "a"` is
`NotFound`, while the claim (and the code's own comment, which says all
ancestor directories are ensured) requires them to succeed. -/
theorem zip_missing_deep_ancestor_eval :
    (ZipFs.new c4Archive).existsb "a" = false
    ∧ (ZipFs.new c4Archive).metadata "a" = .error .NotFound
    ∧ (ZipFs.new c4Archive).existsb "a/b" = true
    ∧ (ZipFs.new c4Archive).metadata "a/b" = .ok ⟨0, true⟩
    ∧ (ZipFs.new c4Archive).existsb "a/b/c.txt" = true := by
  decide

/-- C5 counterexample: for the all-`root/`-prefixed archive
`[root/a/b.txt, root/c.txt]`, the request `"a"` succeeds (`exists "a" = true`,
via the synthesized immediate-parent directory) even though the archive
contained no entry `root/a` — refuting "a request for foo succeeds iff the
archive contained root/foo". -/
theorem zip_root_prefix_synthetic_dir_cex :
    (ZipFs.new c5Archive).existsb "a" = true
    ∧ ¬ ("root/a" ∈ c5Archive.map (fun e => e.name)) := by
  decide

/-- C5 amended: the detection rule is as claimed (the first `/`-delimited
segment of the first entry name is the root prefix iff every entry name starts
with that segment followed by `/`, otherwise there is none); and for an archive
with a detected root prefix, per request operation: `exists` is true, and
`metadata` succeeds, iff the request's normalization is nonempty and equals
either some entry's prefix-stripped normalized name or the immediate parent of
one (synthesized parent directories also answer both, even with no such archive
record); `open_file` succeeds iff that lookup yields a non-directory record —
directory records and synthesized parents give `NotFound` — and `NotFound` is
the only error `open_file` returns (the read of a looked-up file record never
fails, its recorded index always being in range); prefixed paths such as
`root/...` themselves are not visible, and listings and metadata carry no
`root/` segment. -/
theorem zip_root_prefix_amended :
    (∀ (names : List String) (pre : String),
      detectCommonRoot names = some pre ↔
        names ≠ []
        ∧ pre.toList = names.headI.toList.takeWhile (fun c => c ≠ '/')
        ∧ ∀ n ∈ names, ∃ t, n.toList = pre.toList ++ '/' :: t)
    ∧ (∀ (ar : List RawEntry) (pre : String) (p : String),
        detectCommonRoot (ar.map (fun e => e.name)) = some pre →
        ((ZipFs.new ar).existsb p = true ↔
          normalize_path p ≠ ""
          ∧ ∃ e ∈ ar, (normKey (zipPlen ar) e.name = normalize_path p
              ∨ (splitParent (normKey (zipPlen ar) e.name)).1 = normalize_path p))
        ∧ ((∃ m, (ZipFs.new ar).metadata p = .ok m) ↔
          normalize_path p ≠ ""
          ∧ ∃ e ∈ ar, (normKey (zipPlen ar) e.name = normalize_path p
              ∨ (splitParent (normKey (zipPlen ar) e.name)).1 = normalize_path p))
        ∧ ((∃ bytes, (ZipFs.new ar).open_file p = .ok bytes) ↔
          ∃ e, alookup (ZipFs.new ar).entries (normalize_path p) = some e ∧ e.is_dir = false)
        ∧ (∀ err, (ZipFs.new ar).open_file p = .error err → err = .NotFound))
    ∧ ((ZipFs.new c5Archive).existsb "root/a/b.txt" = false
        ∧ (ZipFs.new c5Archive).metadata "a/b.txt" = .ok ⟨1, false⟩
        ∧ (ZipFs.new c5Archive).open_file "a/b.txt" = .ok [1]
        ∧ (ZipFs.new c5Archive).open_file "a" = .error .NotFound
        ∧ (ZipFs.new c5Archive).open_file "root/a/b.txt" = .error .NotFound
        ∧ (ZipFs.new c5Archive).read_dir "a" = .ok ["a/b.txt"]
        ∧ (ZipFs.new c5Archive).read_dir "root" = .error .NotFound) := by
  refine ⟨?detect, ?req, by decide⟩
  · intro names pre
    cases names with
    | nil => simp [detectCommonRoot]
    | cons f rest =>
      show detectCommonRoot (f :: rest) = some pre ↔
        f :: rest ≠ []
        ∧ pre.toList = f.toList.takeWhile (fun c => c ≠ '/')
        ∧ ∀ n ∈ f :: rest, ∃ t, n.toList = pre.toList ++ '/' :: t
      by_cases hf : '/' ∈ f.toList
      · by_cases hall : ((f :: rest).all (fun n =>
            (f.toList.takeWhile (fun c => c ≠ '/') ++ ['/']).isPrefixOf n.toList)) = true
        · rw [show detectCommonRoot (f :: rest)
              = some (String.mk (f.toList.takeWhile (fun c => c ≠ '/'))) from by
                simp only [detectCommonRoot]
                rw [if_pos hf, if_pos hall]]
          constructor
          · intro h
            injection h with h2
            refine ⟨List.cons_ne_nil f rest, by rw [← h2]; rfl, ?all⟩
            intro n hn
            have hb := List.all_eq_true.mp hall n hn
            obtain ⟨t, ht⟩ := List.isPrefixOf_iff_prefix.mp hb
            refine ⟨t, ?_⟩
            rw [← ht, ← h2]
            simp
          · rintro ⟨-, hpl, -⟩
            rw [← string_mk_toList pre, hpl]
        · rw [show detectCommonRoot (f :: rest) = none from by
              simp only [detectCommonRoot]
              rw [if_pos hf, if_neg hall]]
          constructor
          · intro h
            simp at h
          · rintro ⟨-, hpl, hall2⟩
            exfalso
            apply hall
            rw [List.all_eq_true]
            intro n hn
            obtain ⟨t, ht⟩ := hall2 n hn
            rw [ List.isPrefixOf_iff_prefix]
            refine ⟨t, ?_⟩
            rw [ht, hpl]
            simp
      · rw [show detectCommonRoot (f :: rest) = none from by
            simp only [detectCommonRoot]
            rw [if_neg hf]]
        constructor
        · intro h
          simp at h
        · rintro ⟨-, hpl, hall2⟩
          obtain ⟨t, ht⟩ := hall2 f (List.mem_cons_self _ _)
          refine absurd ?slash hf
          rw [ht]
          exact List.mem_append.mpr (Or.inr (List.mem_cons_self _ _))
  · intro ar pre p _
    refine ⟨?ex, ?md, ?ofOk, ?ofErr⟩
    · show (alookup (ZipFs.new ar).entries (normalize_path p)).isSome = true ↔ _
      rw [zip_entries_isSome]
    · have hiff : (∃ m, (ZipFs.new ar).metadata p = .ok m) ↔
          (alookup (ZipFs.new ar).entries (normalize_path p)).isSome = true := by
        unfold ZipFs.metadata
        cases h : alookup (ZipFs.new ar).entries (normalize_path p) with
        | some e => simp [h]
        | none => simp [h]
      rw [hiff, zip_entries_isSome]
    · unfold ZipFs.open_file
      cases h : alookup (ZipFs.new ar).entries (normalize_path p) with
      | none => simp
      | some e =>
        dsimp only
        by_cases hdir : e.is_dir = true
        · rw [if_pos hdir]
          simp [hdir]
        · rw [if_neg hdir]
          have hfalse : e.is_dir = false := by
            cases hb : e.is_dir
            · rfl
            · exact absurd hb hdir
          have hlt : e.index < ar.length :=
            zip_nondir_index_lt ar (normalize_path p) e h hfalse
          obtain ⟨re, hre⟩ := get?_isSome_of_lt ar e.index hlt
          rw [show (ZipFs.new ar).archive = ar from rfl, hre]
          constructor
          · intro _
            exact ⟨e, rfl, hfalse⟩
          · intro _
            exact ⟨re.data, rfl⟩
    · intro err herr
      unfold ZipFs.open_file at herr
      rw [show (ZipFs.new ar).archive = ar from rfl] at herr
      cases h : alookup (ZipFs.new ar).entries (normalize_path p) with
      | none =>
        rw [h] at herr
        dsimp only at herr
        injection herr with h2
        exact h2.symm
      | some e =>
        rw [h] at herr
        dsimp only at herr
        by_cases hdir : e.is_dir = true
        · rw [if_pos hdir] at herr
          injection herr with h2
          exact h2.symm
        · rw [if_neg hdir] at herr
          have hfalse : e.is_dir = false := by
            cases hb : e.is_dir
            · rfl
            · exact absurd hb hdir
          have hlt : e.index < ar.length :=
            zip_nondir_index_lt ar (normalize_path p) e h hfalse
          obtain ⟨re, hre⟩ := get?_isSome_of_lt ar e.index hlt
          rw [hre] at herr
          simp at herr

/-- C5 amended witness: applied to the `root/`-prefixed archive at request
`"a"`, discharging the detection hypothesis; for both the `exists` clause and
the `open_file` clause. -/
theorem zip_root_prefix_amended_witness :
    ((ZipFs.new c5Archive).existsb "a" = true ↔
      normalize_path "a" ≠ ""
      ∧ ∃ e ∈ c5Archive, (normKey (zipPlen c5Archive) e.name = normalize_path "a"
          ∨ (splitParent (normKey (zipPlen c5Archive) e.name)).1 = normalize_path "a"))
    ∧ ((∃ bytes, (ZipFs.new c5Archive).open_file "a" = .ok bytes) ↔
      ∃ e, alookup (ZipFs.new c5Archive).entries (normalize_path "a") = some e
        ∧ e.is_dir = false) :=
  ⟨(zip_root_prefix_amended.2.1 c5Archive "root" "a" (by decide)).1,
   (zip_root_prefix_amended.2.1 c5Archive "root" "a" (by decide)).2.2.1⟩

/-- C6 counterexample: the archive `[a/, b.txt]` records the directory `a`
explicitly with no children; `metadata "a"` reports a directory, yet
`read_dir "a"` is `NotFound` — refuting "read_dir fails iff the path does not
exist as a directory". -/
theorem zip_read_dir_childless_dir_cex :
    (ZipFs.new c6Archive).metadata "a" = .ok ⟨0, true⟩
    ∧ (ZipFs.new c6Archive).read_dir "a" = .error .NotFound := by
  decide

/-- C6 amended: the archive store's `read_dir(path)` succeeds iff the
normalized path is a key of the directory map, i.e. the immediate parent of
some entry's stripped normalized name; a directory recorded explicitly but
with no recorded children is not such a key, so `read_dir` fails on it with
`NotFound` even though its metadata reports a directory.  `NotFound` is the
only error. -/
theorem zip_read_dir_dirmap_amended :
    ∀ (ar : List RawEntry) (p : String),
      ((∃ l, (ZipFs.new ar).read_dir p = .ok l) ↔
        ∃ e ∈ ar, (splitParent (normKey (zipPlen ar) e.name)).1 = normalize_path p)
      ∧ ∀ e, (ZipFs.new ar).read_dir p = .error e → e = .NotFound := by
  intro ar p
  constructor
  · rw [← zip_dir_map_isSome]
    unfold ZipFs.read_dir
    cases h : alookup (ZipFs.new ar).dir_map (normalize_path p) with
    | some set => simp [h]
    | none => simp [h]
  · intro e he
    unfold ZipFs.read_dir at he
    cases h : alookup (ZipFs.new ar).dir_map (normalize_path p) with
    | some set =>
      rw [h] at he
      simp at he
    | none =>
      rw [h] at he
      injection he with h2
      exact h2.symm

/-- C6 amended witness: applied to the childless-directory archive at the root
path, whose listing exists because both entries have the root as immediate
parent. -/
theorem zip_read_dir_dirmap_amended_witness :
    ∃ e ∈ c6Archive, (splitParent (normKey (zipPlen c6Archive) e.name)).1 = normalize_path "" :=
  ((zip_read_dir_dirmap_amended c6Archive "").1).mp ⟨["a", "b.txt"], by decide⟩

/-- C7 counterexample: at input path `""` every operation of the no-op store
panics (`unimplemented!`, message "not implemented: no-op filesystem") instead
of failing through the `Result`/`bool` contract — refuting "fails through the
Result/bool return values without panicking". -/
theorem noop_panics_cex :
    NoOpFs.read_dir ⟨⟩ "" = .panics "not implemented: no-op filesystem"
    ∧ NoOpFs.open_file ⟨⟩ "" = .panics "not implemented: no-op filesystem"
    ∧ NoOpFs.metadata ⟨⟩ "" = .panics "not implemented: no-op filesystem"
    ∧ NoOpFs.existsb ⟨⟩ "" = .panics "not implemented: no-op filesystem"
    ∧ ¬ ∃ r, NoOpFs.read_dir ⟨⟩ "" = .returns r := by
  refine ⟨rfl, rfl, rfl, rfl, ?nr⟩
  rintro ⟨r, hr⟩
  simp [NoOpFs.read_dir] at hr

/-- C7 amended: every operation of the no-op store panics via `unimplemented!`
("no-op filesystem") on every input path; none ever returns through the
`Result`/`bool` contract. -/
theorem noop_always_panics :
    ∀ (fs : NoOpFs) (p : String),
      fs.read_dir p = .panics "not implemented: no-op filesystem"
      ∧ fs.open_file p = .panics "not implemented: no-op filesystem"
      ∧ fs.metadata p = .panics "not implemented: no-op filesystem"
      ∧ fs.existsb p = .panics "not implemented: no-op filesystem" :=
  fun _ _ => ⟨rfl, rfl, rfl, rfl⟩

/-- C8: the normalizer's concrete examples hold, and leading `/`, `.` and `..`
segments are dropped silently (`..` at root pops nothing, never errors and
never escapes above root). -/
theorem normalize_path_spec_examples :
    normalize_path "a/./b/../c" = "a/c"
    ∧ normalize_path "/a/b/" = "a/b"
    ∧ normalize_path "" = ""
    ∧ normalize_path ".." = ""
    ∧ (∀ p : String, normalize_path (String.mk ('/' :: p.toList)) = normalize_path p)
    ∧ (∀ p : String, normalize_path (String.mk ('.' :: '/' :: p.toList)) = normalize_path p)
    ∧ (∀ p : String, normalize_path (String.mk ('.' :: '.' :: '/' :: p.toList)) = normalize_path p) := by
  refine ⟨by decide, by decide, by decide, by decide, ?s, ?d, ?dd⟩
  · intro p
    show String.mk (joinSlash (normSegs [] (splitSlash ('/' :: p.toList))).reverse)
      = normalize_path p
    rw [splitSlash_slash]
    rw [show normSegs ([] : List (List Char)) ([] :: splitSlash p.toList)
        = normSegs [] (splitSlash p.toList) from by simp [normSegs]]
    rfl
  · intro p
    show String.mk (joinSlash (normSegs [] (splitSlash ('.' :: '/' :: p.toList))).reverse)
      = normalize_path p
    rw [splitSlash_cons_of_ne '.' (by decide) _ _ _ (splitSlash_slash p.toList)]
    rw [show normSegs ([] : List (List Char)) (['.'] :: splitSlash p.toList)
        = normSegs [] (splitSlash p.toList) from by simp [normSegs]]
    rfl
  · intro p
    show String.mk (joinSlash (normSegs [] (splitSlash ('.' :: '.' :: '/' :: p.toList))).reverse)
      = normalize_path p
    rw [splitSlash_cons_of_ne '.' (by decide) _ _ _
      (splitSlash_cons_of_ne '.' (by decide) _ _ _ (splitSlash_slash p.toList))]
    rw [show normSegs ([] : List (List Char)) (['.', '.'] :: splitSlash p.toList)
        = normSegs [] (splitSlash p.toList) from by simp [normSegs]]
    rfl

/-- C9: the normalizer is idempotent. -/
theorem normalize_path_idempotent :
    ∀ p : String, normalize_path (normalize_path p) = normalize_path p :=
  fun p => normalize_path_idem p

/-- C10: the root path `""` is never inserted into the archive store's entry
index, so `exists ""` is `false` and `metadata ""` is `NotFound` for every
archive; yet for a non-empty archive with root-level content, `read_dir ""`
succeeds. -/
theorem zip_root_never_indexed :
    (∀ ar : List RawEntry,
      alookup (ZipFs.new ar).entries "" = none
      ∧ (ZipFs.new ar).existsb "" = false
      ∧ (ZipFs.new ar).metadata "" = .error .NotFound)
    ∧ (c10Archive ≠ [] ∧ (ZipFs.new c10Archive).read_dir "" = .ok ["x.txt", "y"]) := by
  constructor
  · intro ar
    have hnone : alookup (ZipFs.new ar).entries "" = none := by
      by_contra hne
      have hs : (alookup (ZipFs.new ar).entries "").isSome = true :=
        Option.ne_none_iff_isSome.mp hne
      obtain ⟨hfalse, -⟩ := (zip_entries_isSome ar "").mp hs
      exact hfalse rfl
    refine ⟨hnone, ?ex, ?md⟩
    · unfold ZipFs.existsb
      rw [show normalize_path "" = "" from rfl, hnone]
      rfl
    · unfold ZipFs.metadata
      rw [show normalize_path "" = "" from rfl, hnone]
  · exact ⟨by decide, by decide⟩
